import Mathlib

/-
Verification development for the DigBuster DNS log watcher.

Shallow embedding of the rule engine (src/digbuster/domains.py), the
domain extractor (src/digbuster/extract.py) and the watch-loop state
(src/digbuster/watcher.py).  Strings are modelled as List Char; Python
sets are modelled as duplicate-free lists built by insertion; Python
dicts as association lists; timestamps as integers.  All definitions are
executable and structurally recursive so concrete runs evaluate by
kernel reduction.
-/

namespace DigBuster

/-! ### Character classes (ASCII fragment of the Python semantics) -/

/-- Python str.strip() whitespace set, restricted to ASCII. -/
def isPyWs (c : Char) : Bool :=
  c = ' ' || c = '\t' || c = '\n' || c = '\r' || c = '\x0b' || c = '\x0c'

/-- ASCII fragment of Python str.lower applied to one character. -/
def pyLower (c : Char) : Char :=
  if 'A' ≤ c ∧ c ≤ 'Z' then Char.ofNat (c.toNat + 32) else c

/-- Character class of the label pattern [a-z0-9_-] compiled with re.I. -/
def labelChar (c : Char) : Bool :=
  ('a' ≤ c && c ≤ 'z') || ('A' ≤ c && c ≤ 'Z') || ('0' ≤ c && c ≤ '9') ||
    c = '_' || c = '-'

/-! ### String helpers mirroring Python str operations -/

/-- Remove trailing characters satisfying p (the right half of str.strip). -/
def dropTrailing (p : Char → Bool) (l : List Char) : List Char :=
  (l.reverse.dropWhile p).reverse

/-- Python s.strip() on ASCII whitespace. -/
def pyStrip (l : List Char) : List Char :=
  dropTrailing isPyWs (l.dropWhile isPyWs)

/-- Python s.strip(".") : strip leading and trailing dot characters. -/
def stripDots (l : List Char) : List Char :=
  dropTrailing (fun c => c = '.') (l.dropWhile (fun c => c = '.'))

/-- Python s.lower() (ASCII fragment). -/
def pyLowerStr (l : List Char) : List Char := l.map pyLower

/-- Python s.split(".") : on the empty string this yields one empty part. -/
def splitDots : List Char → List (List Char)
  | [] => [[]]
  | c :: cs =>
    if c = '.' then [] :: splitDots cs
    else
      match splitDots cs with
      | [] => [[c]]
      | p :: ps => (c :: p) :: ps

/-- Set insertion for a Python set modelled as a duplicate-free list. -/
def insertS (x : List Char) (s : List (List Char)) : List (List Char) :=
  if x ∈ s then s else s ++ [x]

/-! ### Rule store : load_domains (domains.py lines 15-51) -/

/-- Embedding of _valid_fqdn: at least two dot-separated parts, every part
matching the anchored label pattern of 1-63 label characters. -/
def validFqdn (name : List Char) : Bool :=
  let parts := splitDots name
  decide (2 ≤ parts.length) &&
    parts.all (fun p => decide (1 ≤ p.length) && decide (p.length ≤ 63) && p.all labelChar)

/-- RuleSet: the three category sets returned by load_domains. -/
structure Rules where
  contains : List (List Char)
  exact : List (List Char)
  wildcards : List (List Char)
deriving DecidableEq, Inhabited

def emptyRules : Rules := ⟨[], [], []⟩

/-- The normalized entry computed from an already stripped line:
line.lower().strip().strip("."). -/
def entryOf (line : List Char) : List Char :=
  stripDots (pyStrip (pyLowerStr line))

/-- Loop body of load_domains over the file's lines.  The first argument is
the current section name (None before any header).  Errors carry the
message built by the corresponding raise site. -/
def loadAux : Option (List Char) → Rules → List (List Char) →
    Except (List Char) Rules
  | _, r, [] => .ok r
  | sec, r, raw :: rest =>
    let line := pyStrip raw
    if line = [] ∨ line.head? = some '#' then loadAux sec r rest
    else if line.head? = some '[' ∧ line.getLast? = some ']' then
      loadAux (some (pyLowerStr (pyStrip (line.drop 1).dropLast))) r rest
    else if sec ≠ some ("contains".toList) ∧ sec ≠ some ("exact".toList) then
      .error ("unknown or missing section before: ".toList ++ line)
    else
      let entry := entryOf line
      if sec = some ("contains".toList) then
        loadAux sec { r with contains := insertS entry r.contains } rest
      else
        if entry.take 2 = "*.".toList then
          let base := entry.drop 2
          if validFqdn base then
            loadAux sec { r with wildcards := insertS base r.wildcards } rest
          else .error ("invalid wildcard base: ".toList ++ entry)
        else
          if validFqdn entry then
            loadAux sec { r with exact := insertS entry r.exact } rest
          else .error ("invalid fqdn: ".toList ++ entry)

/-- Embedding of load_domains over the list of lines of the rule file. -/
def loadDomains (lines : List (List Char)) : Except (List Char) Rules :=
  loadAux none emptyRules lines

instance instDecEqExceptRules : DecidableEq (Except (List Char) Rules)
  | .ok a, .ok b =>
    if h : a = b then isTrue (by rw [h]) else isFalse (by intro g; cases g; exact h rfl)
  | .ok _, .error _ => isFalse (by intro g; cases g)
  | .error _, .ok _ => isFalse (by intro g; cases g)
  | .error a, .error b =>
    if h : a = b then isTrue (by rw [h]) else isFalse (by intro g; cases g; exact h rfl)



/-! ### Classifier : classify_fqdn (domains.py lines 54-83) -/

structure MatchResult where
  hit : Bool
  containsHits : List (List Char)
  exactHit : Bool
  wildcardBase : Option (List Char)
deriving DecidableEq

/-- Candidate normalization performed inside classify_fqdn:
fqdn.lower().strip().strip("."). -/
def normName (fqdn : List Char) : List Char :=
  stripDots (pyStrip (pyLowerStr fqdn))

/-- Embedding of classify_fqdn.  The wildcard scan keeps the first base of
the stored list whose dotted suffix matches, mirroring the for/break. -/
def classifyFqdn (fqdn : List Char) (r : Rules) : MatchResult :=
  let name := normName fqdn
  let cHits := r.contains.filter (fun tok => decide (tok ≠ []) && decide (tok <:+: name))
  let exactHit : Bool := decide (name ∈ r.exact)
  let wildcardBase : Option (List Char) :=
    if exactHit then none
    else r.wildcards.find? (fun base => decide (('.' :: base) <:+ name))
  { hit := !cHits.isEmpty || exactHit || wildcardBase.isSome
    containsHits := cHits
    exactHit := exactHit
    wildcardBase := wildcardBase }

end DigBuster

namespace DigBuster

/-! ### Watch loop state (watcher.py) : cooldown tracker and reload check -/

/-- The last_seen dict of watch(), as an association list keyed by domain. -/
abbrev CState := List (List Char × Int)

/-- Python last_seen.get(fq) without default. -/
def lookupLS : CState → List Char → Option Int
  | [], _ => none
  | (k, v) :: rest, d => if k = d then some v else lookupLS rest d

/-- Python last_seen[fq] = t (dict assignment). -/
def insertLS : CState → List Char → Int → CState
  | [], d, t => [(d, t)]
  | (k, v) :: rest, d, t =>
    if k = d then (k, t) :: rest else (k, v) :: insertLS rest d t

/-- Python last_seen.get(fq, 0.0): an unseen domain reads as the epoch. -/
def lastAlertTime (st : CState) (d : List Char) : Int :=
  (lookupLS st d).getD 0

/-- The cooldown gate of watch() lines 103-105: the candidate is skipped
when now minus the recorded time is below the cooldown window. -/
def shouldSuppress (st : CState) (d : List Char) (now w : Int) : Bool :=
  now - lastAlertTime st d < w

/-- One iteration of the inner per-candidate loop of watch() (lines
102-129): cooldown gate, then classification, then on a hit the cooldown
commit and the alert; the emitted alert also carries the rules used. -/
def procCandidate (r : Rules) (w now : Int) (st : CState) (fq : List Char) :
    CState × Option (List Char × Int × Rules) :=
  if shouldSuppress st fq now w then (st, none)
  else
    let res := classifyFqdn fq r
    if res.hit then (insertLS st fq now, some (fq, now, r)) else (st, none)

/-- Reachable (last_seen, alert log) pairs of the watch loop: the empty
state is initial, and any per-candidate step (under any rules, window,
time and candidate) leads from a reachable state to a reachable one. -/
inductive Reach : CState → List (List Char × Int × Rules) → Prop
  | init : Reach [] []
  | step (r : Rules) (w now : Int) (fq : List Char) (st : CState)
      (log : List (List Char × Int × Rules)) :
      Reach st log →
      Reach (procCandidate r w now st fq).1
        (log ++ (procCandidate r w now st fq).2.toList)

/-- Embedding of load_domains applied to a path whose file may be absent
(none) : the FileNotFoundError branch of load_domains. -/
def loadDomainsFile (content : Option (List (List Char))) :
    Except (List Char) Rules :=
  match content with
  | none => .error "domains file not found".toList
  | some lines => loadDomains lines

/-- Embedding of _load_rules (watcher.py lines 44-53): on a DomainsError
it returns the EMPTY rule set and mtime 0. -/
def loadRulesFn (content : Option (List (List Char))) (mtime : Int) :
    Rules × Int :=
  match loadDomainsFile content with
  | .ok r => (r, mtime)
  | .error _ => (emptyRules, 0)

/-- Embedding of the reload check of watch() (lines 77-91): when the
observed mtime is nonzero and differs from the recorded one, the result
of _load_rules replaces the active rules wholesale. -/
def reloadCheck (rules : Rules) (rulesMtime : Int)
    (content : Option (List (List Char))) (currentMtime : Int) :
    Rules × Int :=
  if currentMtime ≠ 0 ∧ currentMtime ≠ rulesMtime then
    loadRulesFn content currentMtime
  else (rules, rulesMtime)

/-! ### Domain extractor : extract_fqdns (extract.py)

The pattern is (?i)\b([a-z0-9_-]{1,63}(?:\.[a-z0-9_-]{1,63})+)\b scanned
with re.finditer.  The matcher below embeds the backtracking search of
the regex engine for this pattern over the ASCII fragment of the Python
semantics (word characters for \b are ASCII letters, digits and the
underscore).  Recursion is fueled so that every definition is structural
and evaluates by kernel reduction; the scanner hands each position more
fuel than any backtracking run can consume. -/

/-- ASCII fragment of the \w class used by the \b assertions. -/
def wordChar (c : Char) : Bool :=
  ('a' ≤ c && c ≤ 'z') || ('A' ≤ c && c ≤ 'Z') || ('0' ≤ c && c ≤ '9') ||
    c = '_'

def wordAt : Option Char → Bool
  | none => false
  | some c => wordChar c

/-- A word boundary sits between two positions iff exactly one side is a
word character (positions outside the string count as non-word). -/
def boundary (a b : Option Char) : Bool := wordAt a != wordAt b

/-- Backtracking match of the regex fragment (?:\.[label]{1,63})+ \b
against a prefix of the input, entered on the dot.  Each quantifier
prefers the longest label first and another group over stopping, exactly
as the greedy engine does; on stopping, the trailing \b is checked
between the last matched character and the next input character. -/
def tryLen : Nat → List Char → Nat → Option (List Char)
  | 0, _, _ => none
  | _ + 1, _, 0 => none
  | f + 1, cs, k + 1 =>
    if k + 1 ≤ (cs.takeWhile labelChar).length then
      let rest := cs.drop (k + 1)
      let moreOpt : Option (List Char) :=
        match rest with
        | [] => none
        | c :: cs2 =>
          if c = '.' then
            (tryLen f cs2 (min 63 ((cs2.takeWhile labelChar).length))).map
              (fun m2 => '.' :: m2)
          else none
      match moreOpt with
      | some more => some (cs.take (k + 1) ++ more)
      | none =>
        if boundary (cs.take (k + 1)).getLast? rest.head? then
          some (cs.take (k + 1))
        else tryLen f cs k
    else tryLen f cs k

/-- One-or-more dotted groups starting at the given input (which must
begin with the dot), as used after a candidate first label. -/
def matchTail (f : Nat) (cs : List Char) : Option (List Char) :=
  match cs with
  | [] => none
  | c :: cs2 =>
    if c = '.' then
      (tryLen f cs2 (min 63 ((cs2.takeWhile labelChar).length))).map
        (fun m2 => '.' :: m2)
    else none

/-- Backtracking choice of the first label's length (longest first); the
first label cannot end the match, so only continuation via the dotted
groups is tried. -/
def tryFirst : Nat → List Char → Nat → Option (List Char)
  | 0, _, _ => none
  | _ + 1, _, 0 => none
  | f + 1, cs, k + 1 =>
    if k + 1 ≤ (cs.takeWhile labelChar).length then
      match matchTail f (cs.drop (k + 1)) with
      | some more => some (cs.take (k + 1) ++ more)
      | none => tryFirst f cs k
    else tryFirst f cs k

/-- Attempt of the full pattern at one position: leading \b between the
previous character and the first input character, then the first label
and the dotted groups. -/
def matchAtPos (f : Nat) (prev : Option Char) (cs : List Char) :
    Option (List Char) :=
  if boundary prev cs.head? then
    tryFirst f cs (min 63 ((cs.takeWhile labelChar).length))
  else none

/-- The finditer scan: try the pattern at each position left to right;
on a match, emit it and resume right after its end (matches are at least
one character, so the resume point is within the tail). -/
def scanAux : Nat → Option Char → List Char → List (List Char)
  | 0, _, _ => []
  | _ + 1, _, [] => []
  | f + 1, prev, c :: cs =>
    match matchAtPos (70 * (cs.length + 2)) prev (c :: cs) with
    | some m => m :: scanAux f m.getLast? (cs.drop (m.length - 1))
    | none => scanAux f (some c) cs

/-- Embedding of extract_fqdns: the distinct matches of the scan, each
lowercased with surrounding dots stripped. -/
def extractFqdns (line : List Char) : List (List Char) :=
  if line = [] then []
  else ((scanAux (line.length + 1) none line).map
    (fun m => stripDots (pyLowerStr m))).dedup

/-- Spec-side domain shape: two or more dot-separated labels, each label
1-63 characters of letters, digits, hyphen or underscore (either case). -/
def isLabel (p : List Char) : Bool :=
  decide (1 ≤ p.length) && decide (p.length ≤ 63) && p.all labelChar

/-- Spec-side predicate for a domain-shaped string. -/
def isDomainShaped (s : List Char) : Bool :=
  decide (2 ≤ (splitDots s).length) && (splitDots s).all isLabel

/-! ### Spec-side traversals of the rule file, used to state the parsing
claims: per-category entry lists and the orphan-content predicate.  These
follow the spec's wording (lines under a section, wildcard form) and are
compared against loadAux. -/

/-- For each content line of the file, the normalized entry it
contributes, gathered per category: ([contains] tokens, non-wildcard
[exact] entries, wildcard bases).  Mirrors the spec's counting of lines
under each header. -/
def entriesAux : Option (List Char) → List (List Char) →
    List (List Char) × List (List Char) × List (List Char)
  | _, [] => ([], [], [])
  | sec, raw :: rest =>
    let line := pyStrip raw
    if line = [] ∨ line.head? = some '#' then entriesAux sec rest
    else if line.head? = some '[' ∧ line.getLast? = some ']' then
      entriesAux (some (pyLowerStr (pyStrip (line.drop 1).dropLast))) rest
    else
      let e := entriesAux sec rest
      let entry := entryOf line
      if sec = some ("contains".toList) then (entry :: e.1, e.2.1, e.2.2)
      else if sec = some ("exact".toList) then
        if entry.take 2 = "*.".toList then (e.1, e.2.1, entry.drop 2 :: e.2.2)
        else (e.1, entry :: e.2.1, e.2.2)
      else e

def containsEntries (lines : List (List Char)) : List (List Char) :=
  (entriesAux none lines).1

def exactEntries (lines : List (List Char)) : List (List Char) :=
  (entriesAux none lines).2.1

def wildcardEntries (lines : List (List Char)) : List (List Char) :=
  (entriesAux none lines).2.2

/-- True when some non-blank, non-comment, non-header line appears while
the tracked section is absent or unrecognized (the spec's fatal-content
condition). -/
def hasOrphan : Option (List Char) → List (List Char) → Bool
  | _, [] => false
  | sec, raw :: rest =>
    let line := pyStrip raw
    if line = [] ∨ line.head? = some '#' then hasOrphan sec rest
    else if line.head? = some '[' ∧ line.getLast? = some ']' then
      hasOrphan (some (pyLowerStr (pyStrip (line.drop 1).dropLast))) rest
    else if sec ≠ some ("contains".toList) ∧ sec ≠ some ("exact".toList) then
      true
    else hasOrphan sec rest

/-- Fold a list of entries into a set via set insertion. -/
def insertAll (s : List (List Char)) (l : List (List Char)) :
    List (List Char) :=
  l.foldl (fun acc x => insertS x acc) s

/-! ### Sanity theorems used while developing the embedding -/

theorem loadDomains_example :
    loadDomains ["[contains]".toList, "exfil".toList, "[exact]".toList,
      "bad.example.com".toList, "*.blocked.net".toList] =
    .ok ⟨["exfil".toList], ["bad.example.com".toList], ["blocked.net".toList]⟩ := by
  decide

theorem classify_example :
    (classifyFqdn "sub.blocked.net".toList
      ⟨["exfil".toList], ["bad.example.com".toList], ["blocked.net".toList]⟩).wildcardBase =
      some "blocked.net".toList := by
  decide

/-! ### Helper lemmas about the cooldown dictionary -/

theorem lookupLS_insertLS (st : CState) (k : List Char) (v : Int) (d : List Char) :
    lookupLS (insertLS st k v) d = if d = k then some v else lookupLS st d := by
  induction st with
  | nil =>
    by_cases h : d = k
    · subst h; simp [insertLS, lookupLS]
    · have h' : ¬ k = d := fun g => h g.symm
      simp [insertLS, lookupLS, h, h']
  | cons p rest ih =>
    obtain ⟨pk, pv⟩ := p
    by_cases hpk : pk = k
    · subst hpk
      by_cases hd : d = pk
      · subst hd; simp [insertLS, lookupLS]
      · have hd' : ¬ pk = d := fun g => hd g.symm
        simp [insertLS, lookupLS, hd, hd']
    · by_cases hpd : pk = d
      · subst hpd
        simp [insertLS, lookupLS, hpk]
      · simp [insertLS, lookupLS, hpk, hpd, ih]

/-! ### Claim theorems -/

/-- Claim C3: when the normalized candidate is a member of the exact set,
classification never populates the wildcard base, even if a wildcard base
would also match; wildcard matching is gated on the exact hit being
false. -/
theorem c3_exact_precedes_wildcard (c : List Char) (r : Rules)
    (h : normName c ∈ r.exact) :
    (classifyFqdn c r).wildcardBase = none := by
  simp [classifyFqdn, h]

/-- Witness for C3: a.b.c sits in the exact set and is also a strict
subdomain of the wildcard base b.c, yet classification reports no
wildcard base. -/
theorem c3_witness :
    normName "a.b.c".toList ∈
        (⟨[], ["a.b.c".toList], ["b.c".toList]⟩ : Rules).exact ∧
      (classifyFqdn "a.b.c".toList
        (⟨[], ["a.b.c".toList], ["b.c".toList]⟩ : Rules)).wildcardBase = none :=
  ⟨by decide,
   c3_exact_precedes_wildcard "a.b.c".toList
     (⟨[], ["a.b.c".toList], ["b.c".toList]⟩ : Rules) (by decide)⟩

/-- Claim C2 (code bug): after a rule file that loaded successfully is
replaced by an unparseable one, the next reload check does NOT retain the
active RuleSet: the code swaps in the empty rule set produced by the
_load_rules error branch, emptying all three categories. -/
theorem c2_reload_failure_empties_rules :
    loadDomains ["[contains]".toList, "exfil".toList] =
        .ok ⟨["exfil".toList], [], []⟩ ∧
      loadDomains ["garbage".toList] =
        .error ("unknown or missing section before: garbage".toList) ∧
      reloadCheck ⟨["exfil".toList], [], []⟩ 1 (some ["garbage".toList]) 2 =
        (emptyRules, 0) ∧
      (⟨["exfil".toList], [], []⟩ : Rules).contains.length = 1 ∧
      emptyRules.contains.length = 0 := by
  decide

/-- Claim C4 counterexample: a domain never recorded before IS suppressed
at time 1 under window 2 (1 - 0 < 2), contradicting the clause that an
unseen domain is never suppressed the first time. -/
theorem c4_counterexample :
    lookupLS [] "d".toList = none ∧
      shouldSuppress [] "d".toList 1 2 = true := by
  decide

/-- Claim C4 (amended): suppression holds iff now minus the last recorded
alert time (epoch 0 for unseen domains) is strictly below the window; an
unseen domain is not suppressed once now is at least the window; with
window zero nothing whose recorded time is at most now is suppressed; a
domain recorded at t0 produces no second alert while t1 - t0 < W and does
alert at t1 at least t0 + W when it still classifies as a hit. -/
theorem c4_cooldown_behavior (st : CState) (d : List Char)
    (now w t0 t1 : Int) (r : Rules) :
    (shouldSuppress st d now w = true ↔ now - lastAlertTime st d < w) ∧
      (lookupLS st d = none → w ≤ now → shouldSuppress st d now w = false) ∧
      (lastAlertTime st d ≤ now → shouldSuppress st d now 0 = false) ∧
      (t1 - t0 < w → (procCandidate r w t1 (insertLS st d t0) d).2 = none) ∧
      (t0 + w ≤ t1 → (classifyFqdn d r).hit = true →
        (procCandidate r w t1 (insertLS st d t0) d).2 = some (d, t1, r)) := by
  have hla : lastAlertTime (insertLS st d t0) d = t0 := by
    simp [lastAlertTime, lookupLS_insertLS]
  refine ⟨by simp [shouldSuppress], ?_, ?_, ?_, ?_⟩
  · intro hnone hw
    simp [shouldSuppress, lastAlertTime, hnone]
    omega
  · intro hle
    simp [shouldSuppress]
    omega
  · intro hlt
    have hs : shouldSuppress (insertLS st d t0) d t1 w = true := by
      simp [shouldSuppress, hla]; omega
    simp [procCandidate, hs]
  · intro hge hhit
    have hs : shouldSuppress (insertLS st d t0) d t1 w = false := by
      simp [shouldSuppress, hla]; omega
    simp [procCandidate, hs, hhit]

/-- Witness for C4: an unseen domain is not suppressed at time 100 under
window 60, and a domain recorded at 100 alerts again at time 200. -/
theorem c4_witness :
    shouldSuppress [] "d".toList 100 60 = false ∧
      (procCandidate ⟨["d".toList], [], []⟩ 60 200
          (insertLS [] "d".toList 100) "d".toList).2 =
        some ("d".toList, 200, ⟨["d".toList], [], []⟩) :=
  ⟨(c4_cooldown_behavior [] "d".toList 100 60 0 0 emptyRules).2.1 rfl (by decide),
   (c4_cooldown_behavior [] "d".toList 200 60 100 200
       ⟨["d".toList], [], []⟩).2.2.2.2 (by decide) (by decide)⟩

/-- Claim C9: in every reachable (last_seen, alert log) pair of the watch
loop, every logged alert was classified as a hit under the rules active
at that moment, and every domain held by the cooldown map appears in the
alert log, so the map only ever holds domains that previously triggered
an alert. -/
theorem c9_tracker_holds_only_alerted (st : CState)
    (log : List (List Char × Int × Rules)) (h : Reach st log) :
    (∀ e ∈ log, (classifyFqdn e.1 e.2.2).hit = true) ∧
      (∀ d t, lookupLS st d = some t → ∃ r, (d, t, r) ∈ log) := by
  induction h with
  | init => exact ⟨by simp, by simp [lookupLS]⟩
  | step r w now fq st log _ ih =>
    by_cases hs : shouldSuppress st fq now w = true
    · have hpc : procCandidate r w now st fq = (st, none) := by
        simp [procCandidate, hs]
      rw [hpc]
      simpa using ih
    · by_cases hh : (classifyFqdn fq r).hit = true
      · have hpc : procCandidate r w now st fq =
            (insertLS st fq now, some (fq, now, r)) := by
          simp [procCandidate, hs, hh]
        rw [hpc]
        constructor
        · intro e he
          rcases List.mem_append.mp he with h1 | h1
          · exact ih.1 e h1
          · have he2 : e = (fq, now, r) := by simpa using h1
            rw [he2]
            exact hh
        · intro d t hl
          rw [lookupLS_insertLS] at hl
          by_cases hd : d = fq
          · rw [if_pos hd] at hl
            have ht : t = now := by
              injection hl with h1
              exact h1.symm
            refine ⟨r, ?_⟩
            rw [hd, ht]
            exact List.mem_append.mpr (Or.inr (by simp))
          · rw [if_neg hd] at hl
            obtain ⟨r', hr'⟩ := ih.2 d t hl
            exact ⟨r', List.mem_append.mpr (Or.inl hr')⟩
      · have hh' : (classifyFqdn fq r).hit = false := by
          simpa using hh
        have hpc : procCandidate r w now st fq = (st, none) := by
          simp [procCandidate, hs, hh']
        rw [hpc]
        simpa using ih

/-- Witness for C9: after one hit step from the initial state the map
holds d at time 100 and the log records the corresponding alert. -/
theorem c9_witness :
    Reach (procCandidate ⟨["d".toList], [], []⟩ 60 100 [] "d".toList).1
        ((procCandidate ⟨["d".toList], [], []⟩ 60 100 [] "d".toList).2.toList) ∧
      ∃ r, ("d".toList, (100 : Int), r) ∈
        (procCandidate ⟨["d".toList], [], []⟩ 60 100 [] "d".toList).2.toList :=
  have hreach : Reach (procCandidate ⟨["d".toList], [], []⟩ 60 100 [] "d".toList).1
      ((procCandidate ⟨["d".toList], [], []⟩ 60 100 [] "d".toList).2.toList) :=
    Reach.step ⟨["d".toList], [], []⟩ 60 100 "d".toList [] [] Reach.init
  ⟨hreach,
   (c9_tracker_holds_only_alerted _ _ hreach).2 "d".toList 100 (by decide)⟩

/-- Claim C10 counterexample: normalization is not idempotent, so
classification is not invariant under it: the candidate ".a ." hits the
rule set whose exact entry is "a " (with a trailing blank), while its
normalized form "a " re-normalizes to "a" and misses. -/
theorem c10_counterexample :
    (classifyFqdn ".a .".toList (⟨[], ["a ".toList], []⟩ : Rules)).hit = true ∧
      (classifyFqdn (normName ".a .".toList)
        (⟨[], ["a ".toList], []⟩ : Rules)).hit = false ∧
      classifyFqdn ".a .".toList (⟨[], ["a ".toList], []⟩ : Rules) ≠
        classifyFqdn (normName ".a .".toList) (⟨[], ["a ".toList], []⟩ : Rules) := by
  decide

/-- Claim C10 (amended): classification is invariant under replacing the
candidate by its normalized form (lowercased, whitespace-stripped,
dot-stripped) whenever normalization is idempotent on the candidate;
then the whole result record coincides. -/
theorem c10_classify_norm_invariant (c : List Char) (r : Rules)
    (h : normName (normName c) = normName c) :
    classifyFqdn (normName c) r = classifyFqdn c r := by
  unfold classifyFqdn
  rw [h]

/-- Claim C1 counterexample: the rule file whose [contains] section holds
the single line "." loads to a set holding the empty token; the empty
token is a substring of every candidate, yet classifying the candidate x
yields no hit, because classify_fqdn skips falsy tokens. -/
theorem c1_counterexample :
    loadDomains ["[contains]".toList, ".".toList] =
        .ok ⟨[([] : List Char)], [], []⟩ ∧
      ([] : List Char) ∈ (⟨[([] : List Char)], [], []⟩ : Rules).contains ∧
      (([] : List Char) <:+: normName "x".toList) ∧
      (classifyFqdn "x".toList ⟨[([] : List Char)], [], []⟩).hit = false := by
  decide

/-- Claim C1 (amended): for a RuleSet produced by rule-file loading, the
hit flag is true iff the normalized candidate is a member of the exact
set, or ends with a dot followed by some wildcard base, or some NON-EMPTY
contains token is a substring of the normalized candidate. -/
theorem c1_hit_iff (c : List Char) (lines : List (List Char)) (R : Rules)
    (_hload : loadDomains lines = .ok R) :
    (classifyFqdn c R).hit = true ↔
      normName c ∈ R.exact ∨
        (∃ b ∈ R.wildcards, ('.' :: b) <:+ normName c) ∨
        (∃ t ∈ R.contains, t ≠ [] ∧ t <:+: normName c) := by
  by_cases he : normName c ∈ R.exact
  · simp [classifyFqdn, he]
  · simp [classifyFqdn, he, List.find?_isSome, List.filter_eq_nil_iff,
      not_forall]
    exact Or.comm

/-- Witness for C1: the concrete rule file of the spec's scenario loads,
and for the candidate sub.blocked.net the hit characterization holds. -/
theorem c1_witness :
    loadDomains ["[contains]".toList, "exfil".toList, "[exact]".toList,
        "bad.example.com".toList, "*.blocked.net".toList] =
      .ok ⟨["exfil".toList], ["bad.example.com".toList], ["blocked.net".toList]⟩ ∧
    ((classifyFqdn "sub.blocked.net".toList
        (⟨["exfil".toList], ["bad.example.com".toList],
          ["blocked.net".toList]⟩ : Rules)).hit = true ↔
      normName "sub.blocked.net".toList ∈
          (⟨["exfil".toList], ["bad.example.com".toList],
            ["blocked.net".toList]⟩ : Rules).exact ∨
        (∃ b ∈ (⟨["exfil".toList], ["bad.example.com".toList],
            ["blocked.net".toList]⟩ : Rules).wildcards,
          ('.' :: b) <:+ normName "sub.blocked.net".toList) ∨
        (∃ t ∈ (⟨["exfil".toList], ["bad.example.com".toList],
            ["blocked.net".toList]⟩ : Rules).contains,
          t ≠ [] ∧ t <:+: normName "sub.blocked.net".toList)) :=
  ⟨by decide,
   c1_hit_iff "sub.blocked.net".toList
     ["[contains]".toList, "exfil".toList, "[exact]".toList,
       "bad.example.com".toList, "*.blocked.net".toList]
     (⟨["exfil".toList], ["bad.example.com".toList],
       ["blocked.net".toList]⟩ : Rules) (by decide)⟩

/-! ### Lemmas about splitDots and label runs -/

theorem splitDots_ne_nil (s : List Char) : splitDots s ≠ [] := by
  cases s with
  | nil => simp [splitDots]
  | cons c cs =>
    by_cases hc : c = '.'
    · simp [splitDots, hc]
    · simp only [splitDots, hc, if_false]
      rcases splitDots cs with _ | ⟨p, ps⟩ <;> simp

theorem splitDots_dotfree (s : List Char) (h : ∀ a ∈ s, ¬ a = '.') :
    splitDots s = [s] := by
  induction s with
  | nil => rfl
  | cons c cs ih =>
    have hc : ¬ c = '.' := h c (by simp)
    have ihs : splitDots cs = [cs] := ih (fun a ha => h a (by simp [ha]))
    simp [splitDots, hc, ihs]

theorem splitDots_append (lab rest : List Char) (h : ∀ a ∈ lab, ¬ a = '.') :
    splitDots (lab ++ '.' :: rest) = lab :: splitDots rest := by
  induction lab with
  | nil => simp [splitDots]
  | cons c lab ih =>
    have hc : ¬ c = '.' := h c (by simp)
    have ihs := ih (fun a ha => h a (by simp [ha]))
    simp [splitDots, hc, ihs]

theorem labelChar_ne_dot (a : Char) (h : labelChar a = true) : ¬ a = '.' := by
  intro g
  subst g
  exact absurd h (by decide)

theorem all_labelChar_dotfree {l : List Char} (h : l.all labelChar = true) :
    ∀ a ∈ l, ¬ a = '.' := by
  intro a ha
  rw [List.all_eq_true] at h
  exact labelChar_ne_dot a (h a ha)

theorem take_of_takeWhile_le {p : Char → Bool} {cs : List Char} {j : Nat}
    (h : j ≤ (cs.takeWhile p).length) :
    (cs.take j).all p = true ∧ (cs.take j).length = j := by
  obtain ⟨t, ht⟩ := cs.takeWhile_prefix (p := p)
  have htake : cs.take j = (cs.takeWhile p).take j := by
    conv_lhs => rw [← ht]
    rw [List.take_append_eq_append_take]
    have hz : j - (cs.takeWhile p).length = 0 := by omega
    rw [hz]
    simp
  constructor
  · rw [List.all_eq_true]
    intro a ha
    rw [htake] at ha
    exact List.mem_takeWhile_imp (List.take_subset _ _ ha)
  · have hlen2 := congrArg List.length ht
    simp only [List.length_append] at hlen2
    rw [List.length_take]
    omega

theorem prefix_take_append {cs : List Char} {j : Nat} {more : List Char}
    (h : more <+: cs.drop j) : (cs.take j ++ more) <+: cs := by
  obtain ⟨t, ht⟩ := h
  exact ⟨t, by rw [List.append_assoc, ht, List.take_append_drop]⟩

/-! ### Soundness of the regex matcher: every match is a domain-shaped
prefix of its input -/

theorem tryLen_succ (f : Nat) (cs : List Char) (k : Nat) :
    tryLen (f + 1) cs (k + 1) =
      if k + 1 ≤ (cs.takeWhile labelChar).length then
        match matchTail f (cs.drop (k + 1)) with
        | some more => some (cs.take (k + 1) ++ more)
        | none =>
          if boundary (cs.take (k + 1)).getLast? (cs.drop (k + 1)).head? then
            some (cs.take (k + 1))
          else tryLen f cs k
      else tryLen f cs k := rfl

theorem tryLen_sound (f : Nat) :
    ∀ (cs : List Char) (k : Nat) (m : List Char), k ≤ 63 →
      tryLen f cs k = some m →
      m <+: cs ∧ (splitDots m).all isLabel = true := by
  induction f with
  | zero =>
    intro cs k m _ h
    simp [tryLen] at h
  | succ f ih =>
    intro cs k m hk h
    match k, hk with
    | 0, _ => simp [tryLen] at h
    | k + 1, hk =>
      rw [tryLen_succ] at h
      by_cases hlen : k + 1 ≤ (cs.takeWhile labelChar).length
      · rw [if_pos hlen] at h
        obtain ⟨hall, hlab⟩ := take_of_takeWhile_le hlen
        have hisl : isLabel (cs.take (k + 1)) = true := by
          simp [isLabel, hall, hlab]
          omega
        have hdotfree := all_labelChar_dotfree hall
        split at h
        · rename_i more heq
          have hm : m = cs.take (k + 1) ++ more := by
            injection h with h2
            exact h2.symm
          subst hm
          rcases hdrop : cs.drop (k + 1) with _ | ⟨c, cs2⟩
          · rw [hdrop] at heq
            simp [matchTail] at heq
          · rw [hdrop] at heq
            simp only [matchTail] at heq
            by_cases hc : c = '.'
            · rw [if_pos hc] at heq
              rcases hinner : tryLen f cs2 (min 63 ((cs2.takeWhile labelChar).length))
                  with _ | m1
              · rw [hinner] at heq
                simp at heq
              · rw [hinner] at heq
                simp only [Option.map_some'] at heq
                have hmore : more = '.' :: m1 := by
                  injection heq with h2
                  exact h2.symm
                subst hmore
                subst hc
                obtain ⟨hpre1, hlabels1⟩ :=
                  ih cs2 _ m1 (Nat.min_le_left _ _) hinner
                constructor
                · apply prefix_take_append
                  rw [hdrop]
                  obtain ⟨t, ht⟩ := hpre1
                  exact ⟨t, by simp [ht]⟩
                · rw [splitDots_append _ _ hdotfree]
                  simp [hisl, hlabels1]
            · rw [if_neg hc] at heq
              exact absurd heq (by simp)
        · rename_i heq
          split at h
          · have hm : m = cs.take (k + 1) := by
              injection h with h2
              exact h2.symm
            subst hm
            refine ⟨List.take_prefix _ _, ?_⟩
            rw [splitDots_dotfree _ hdotfree]
            simp [hisl]
          · exact ih cs k m (by omega) h
      · rw [if_neg hlen] at h
        exact ih cs k m (by omega) h

theorem tryFirst_succ (f : Nat) (cs : List Char) (k : Nat) :
    tryFirst (f + 1) cs (k + 1) =
      if k + 1 ≤ (cs.takeWhile labelChar).length then
        match matchTail f (cs.drop (k + 1)) with
        | some more => some (cs.take (k + 1) ++ more)
        | none => tryFirst f cs k
      else tryFirst f cs k := rfl

theorem tryFirst_sound (f : Nat) :
    ∀ (cs : List Char) (k : Nat) (m : List Char), k ≤ 63 →
      tryFirst f cs k = some m →
      m <+: cs ∧ isDomainShaped m = true := by
  induction f with
  | zero =>
    intro cs k m _ h
    simp [tryFirst] at h
  | succ f ih =>
    intro cs k m hk h
    match k, hk with
    | 0, _ => simp [tryFirst] at h
    | k + 1, hk =>
      rw [tryFirst_succ] at h
      by_cases hlen : k + 1 ≤ (cs.takeWhile labelChar).length
      · rw [if_pos hlen] at h
        obtain ⟨hall, hlab⟩ := take_of_takeWhile_le hlen
        have hisl : isLabel (cs.take (k + 1)) = true := by
          simp [isLabel, hall, hlab]
          omega
        have hdotfree := all_labelChar_dotfree hall
        split at h
        · rename_i more heq
          have hm : m = cs.take (k + 1) ++ more := by
            injection h with h2
            exact h2.symm
          subst hm
          rcases hdrop : cs.drop (k + 1) with _ | ⟨c, cs2⟩
          · rw [hdrop] at heq
            simp [matchTail] at heq
          · rw [hdrop] at heq
            simp only [matchTail] at heq
            by_cases hc : c = '.'
            · rw [if_pos hc] at heq
              rcases hinner : tryLen f cs2 (min 63 ((cs2.takeWhile labelChar).length))
                  with _ | m1
              · rw [hinner] at heq
                simp at heq
              · rw [hinner] at heq
                simp only [Option.map_some'] at heq
                have hmore : more = '.' :: m1 := by
                  injection heq with h2
                  exact h2.symm
                subst hmore
                subst hc
                obtain ⟨hpre1, hlabels1⟩ :=
                  tryLen_sound f cs2 _ m1 (Nat.min_le_left _ _) hinner
                constructor
                · apply prefix_take_append
                  rw [hdrop]
                  obtain ⟨t, ht⟩ := hpre1
                  exact ⟨t, by simp [ht]⟩
                · have hlen1 : 1 ≤ (splitDots m1).length := by
                    cases hsd : splitDots m1 with
                    | nil => exact absurd hsd (splitDots_ne_nil m1)
                    | cons p ps => simp
                  simp only [isDomainShaped, splitDots_append _ _ hdotfree]
                  simp [hisl, hlabels1]
                  omega
            · rw [if_neg hc] at heq
              exact absurd heq (by simp)
        · rename_i heq
          exact ih cs k m (by omega) h
      · rw [if_neg hlen] at h
        exact ih cs k m (by omega) h

theorem matchAtPos_sound (f : Nat) (prev : Option Char) (cs : List Char)
    (m : List Char) (h : matchAtPos f prev cs = some m) :
    m <+: cs ∧ isDomainShaped m = true := by
  simp only [matchAtPos] at h
  by_cases hb : boundary prev cs.head? = true
  · rw [if_pos hb] at h
    exact tryFirst_sound f cs _ m (Nat.min_le_left _ _) h
  · rw [if_neg hb] at h
    exact absurd h (by simp)

theorem scanAux_sound (f : Nat) :
    ∀ (prev : Option Char) (cs : List Char) (m : List Char),
      m ∈ scanAux f prev cs → m <:+: cs ∧ isDomainShaped m = true := by
  induction f with
  | zero =>
    intro prev cs m h
    simp [scanAux] at h
  | succ f ih =>
    intro prev cs m h
    match cs with
    | [] => simp [scanAux] at h
    | c :: cs =>
      simp only [scanAux] at h
      split at h
      · rename_i m0 heq
        rcases List.mem_cons.mp h with rfl | hmem
        · obtain ⟨hpre, hshape⟩ := matchAtPos_sound _ _ _ _ heq
          exact ⟨hpre.isInfix, hshape⟩
        · obtain ⟨hinf, hshape⟩ := ih _ _ _ hmem
          refine ⟨?_, hshape⟩
          have h1 : m <:+: cs := hinf.trans (List.drop_suffix _ _).isInfix
          exact h1.trans (List.suffix_cons c cs).isInfix
      · obtain ⟨hinf, hshape⟩ := ih _ _ _ h
        exact ⟨hinf.trans (List.suffix_cons c cs).isInfix, hshape⟩

/-! ### Lemmas relating loadAux to the spec-side traversals -/

theorem insertS_length_of_not_mem {x : List Char} {s : List (List Char)}
    (h : x ∉ s) : (insertS x s).length = s.length + 1 := by
  simp [insertS, h]

theorem insertAll_length_nodup (l : List (List Char)) :
    ∀ s : List (List Char), (∀ x ∈ l, x ∉ s) → l.Nodup →
      (insertAll s l).length = s.length + l.length := by
  induction l with
  | nil => intro s _ _; simp [insertAll]
  | cons x l ih =>
    intro s hnm hnd
    have hx : x ∉ s := hnm x (by simp)
    have step : insertAll s (x :: l) = insertAll (insertS x s) l := rfl
    rw [step, ih (insertS x s) ?_ (List.nodup_cons.mp hnd).2]
    · rw [insertS_length_of_not_mem hx]
      simp [Nat.add_assoc, Nat.add_comm 1]
    · intro y hy
      have hys : y ∉ s := hnm y (by simp [hy])
      have hyx : y ≠ x := by
        intro g; subst g
        exact (List.nodup_cons.mp hnd).1 hy
      simp [insertS, hx, hys, hyx]

theorem loadAux_ok_entries (lines : List (List Char)) :
    ∀ (sec : Option (List Char)) (r R : Rules),
      loadAux sec r lines = .ok R →
      R.contains = insertAll r.contains (entriesAux sec lines).1 ∧
        R.exact = insertAll r.exact (entriesAux sec lines).2.1 ∧
        R.wildcards = insertAll r.wildcards (entriesAux sec lines).2.2 := by
  induction lines with
  | nil =>
    intro sec r R h
    simp only [loadAux, Except.ok.injEq] at h
    subst h
    exact ⟨rfl, rfl, rfl⟩
  | cons raw rest ih =>
    intro sec r R h
    simp only [loadAux] at h
    simp only [entriesAux]
    by_cases h1 : pyStrip raw = [] ∨ (pyStrip raw).head? = some '#'
    · rw [if_pos h1] at h; rw [if_pos h1]
      exact ih sec r R h
    · rw [if_neg h1] at h; rw [if_neg h1]
      by_cases h2 : (pyStrip raw).head? = some '[' ∧
          (pyStrip raw).getLast? = some ']'
      · rw [if_pos h2] at h; rw [if_pos h2]
        exact ih _ r R h
      · rw [if_neg h2] at h; rw [if_neg h2]
        by_cases h3 : sec ≠ some ("contains".toList) ∧ sec ≠ some ("exact".toList)
        · rw [if_pos h3] at h
          cases h
        · rw [if_neg h3] at h
          by_cases h4 : sec = some ("contains".toList)
          · rw [if_pos h4] at h; rw [if_pos h4]
            exact ih sec _ R h
          · rw [if_neg h4] at h; rw [if_neg h4]
            have h5 : sec = some ("exact".toList) := by
              rcases not_and_or.mp h3 with hc | hc
              · exact absurd (not_not.mp hc) h4
              · exact not_not.mp hc
            rw [if_pos h5]
            by_cases h6 : (entryOf (pyStrip raw)).take 2 = "*.".toList
            · rw [if_pos h6] at h; rw [if_pos h6]
              by_cases h7 : validFqdn ((entryOf (pyStrip raw)).drop 2) = true
              · rw [if_pos h7] at h
                exact ih sec _ R h
              · rw [if_neg h7] at h
                cases h
            · rw [if_neg h6] at h; rw [if_neg h6]
              by_cases h7 : validFqdn (entryOf (pyStrip raw)) = true
              · rw [if_pos h7] at h
                exact ih sec _ R h
              · rw [if_neg h7] at h
                cases h

theorem hasOrphan_error (lines : List (List Char)) :
    ∀ (sec : Option (List Char)) (r : Rules),
      hasOrphan sec lines = true → ∃ e, loadAux sec r lines = .error e := by
  induction lines with
  | nil =>
    intro sec r h
    simp [hasOrphan] at h
  | cons raw rest ih =>
    intro sec r h
    simp only [hasOrphan] at h
    simp only [loadAux]
    by_cases h1 : pyStrip raw = [] ∨ (pyStrip raw).head? = some '#'
    · rw [if_pos h1] at h; rw [if_pos h1]
      exact ih sec r h
    · rw [if_neg h1] at h; rw [if_neg h1]
      by_cases h2 : (pyStrip raw).head? = some '[' ∧
          (pyStrip raw).getLast? = some ']'
      · rw [if_pos h2] at h; rw [if_pos h2]
        exact ih _ r h
      · rw [if_neg h2] at h; rw [if_neg h2]
        by_cases h3 : sec ≠ some ("contains".toList) ∧ sec ≠ some ("exact".toList)
        · rw [if_pos h3]
          exact ⟨_, rfl⟩
        · rw [if_neg h3] at h; rw [if_neg h3]
          by_cases h4 : sec = some ("contains".toList)
          · rw [if_pos h4]
            exact ih sec _ h
          · rw [if_neg h4]
            by_cases h6 : (entryOf (pyStrip raw)).take 2 = "*.".toList
            · rw [if_pos h6]
              by_cases h7 : validFqdn ((entryOf (pyStrip raw)).drop 2) = true
              · rw [if_pos h7]
                exact ih sec _ h
              · rw [if_neg h7]
                exact ⟨_, rfl⟩
            · rw [if_neg h6]
              by_cases h7 : validFqdn (entryOf (pyStrip raw)) = true
              · rw [if_pos h7]
                exact ih sec _ h
              · rw [if_neg h7]
                exact ⟨_, rfl⟩

theorem prefix_head_eq {p l : List Char} (h : p <+: l) (hne : p ≠ []) :
    p.head? = l.head? := by
  rcases h with ⟨t, rfl⟩
  cases p with
  | nil => exact absurd rfl hne
  | cons a as => rfl

theorem loadAux_validation_error (lines : List (List Char)) :
    ∀ (sec : Option (List Char)) (r : Rules) (e : List Char),
      loadAux sec r lines = .error e →
      ("invalid fqdn: ".toList <+: e ∨ "invalid wildcard base: ".toList <+: e) →
      ∃ raw ∈ lines, entryOf (pyStrip raw) <:+: e := by
  induction lines with
  | nil =>
    intro sec r e h _
    simp [loadAux] at h
  | cons raw rest ih =>
    intro sec r e h hk
    simp only [loadAux] at h
    by_cases h1 : pyStrip raw = [] ∨ (pyStrip raw).head? = some '#'
    · rw [if_pos h1] at h
      obtain ⟨raw', hmem, hinf⟩ := ih _ _ _ h hk
      exact ⟨raw', List.mem_cons_of_mem _ hmem, hinf⟩
    · rw [if_neg h1] at h
      by_cases h2 : (pyStrip raw).head? = some '[' ∧
          (pyStrip raw).getLast? = some ']'
      · rw [if_pos h2] at h
        obtain ⟨raw', hmem, hinf⟩ := ih _ _ _ h hk
        exact ⟨raw', List.mem_cons_of_mem _ hmem, hinf⟩
      · rw [if_neg h2] at h
        by_cases h3 : sec ≠ some ("contains".toList) ∧ sec ≠ some ("exact".toList)
        · rw [if_pos h3] at h
          have he : e = "unknown or missing section before: ".toList ++ pyStrip raw := by
            injection h with h'
            exact h'.symm
          subst he
          rcases hk with hk | hk
          · have h0 := prefix_head_eq hk (by decide)
            have h0' : (some 'i' : Option Char) = some 'u' := h0
            exact absurd h0' (by decide)
          · have h0 := prefix_head_eq hk (by decide)
            have h0' : (some 'i' : Option Char) = some 'u' := h0
            exact absurd h0' (by decide)
        · rw [if_neg h3] at h
          by_cases h4 : sec = some ("contains".toList)
          · rw [if_pos h4] at h
            obtain ⟨raw', hmem, hinf⟩ := ih _ _ _ h hk
            exact ⟨raw', List.mem_cons_of_mem _ hmem, hinf⟩
          · rw [if_neg h4] at h
            by_cases h6 : (entryOf (pyStrip raw)).take 2 = "*.".toList
            · rw [if_pos h6] at h
              by_cases h7 : validFqdn ((entryOf (pyStrip raw)).drop 2) = true
              · rw [if_pos h7] at h
                obtain ⟨raw', hmem, hinf⟩ := ih _ _ _ h hk
                exact ⟨raw', List.mem_cons_of_mem _ hmem, hinf⟩
              · rw [if_neg h7] at h
                have he : e = "invalid wildcard base: ".toList ++ entryOf (pyStrip raw) := by
                  injection h with h'
                  exact h'.symm
                subst he
                exact ⟨raw, by simp, ⟨"invalid wildcard base: ".toList, [], by simp⟩⟩
            · rw [if_neg h6] at h
              by_cases h7 : validFqdn (entryOf (pyStrip raw)) = true
              · rw [if_pos h7] at h
                obtain ⟨raw', hmem, hinf⟩ := ih _ _ _ h hk
                exact ⟨raw', List.mem_cons_of_mem _ hmem, hinf⟩
              · rw [if_neg h7] at h
                have he : e = "invalid fqdn: ".toList ++ entryOf (pyStrip raw) := by
                  injection h with h'
                  exact h'.symm
                subst he
                exact ⟨raw, by simp, ⟨"invalid fqdn: ".toList, [], by simp⟩⟩

/-- Claim C5 counterexample: the rule file [exact] / foo.com / FOO.COM has
pairwise distinct lines, M = 2 exact-section lines of which K = 0 use the
wildcard form, yet the loaded exact set has 1 element, not M - K = 2,
because both lines normalize to the same entry. -/
theorem c5_counterexample :
    ["[exact]".toList, "foo.com".toList, "FOO.COM".toList].Nodup ∧
      loadDomains ["[exact]".toList, "foo.com".toList, "FOO.COM".toList] =
        .ok ⟨[], ["foo.com".toList], []⟩ ∧
      (exactEntries ["[exact]".toList, "foo.com".toList, "FOO.COM".toList]).length +
          (wildcardEntries ["[exact]".toList, "foo.com".toList, "FOO.COM".toList]).length = 2 ∧
      (wildcardEntries ["[exact]".toList, "foo.com".toList, "FOO.COM".toList]).length = 0 ∧
      (⟨[], ["foo.com".toList], []⟩ : Rules).exact.length ≠ 2 - 0 := by
  decide

/-- Claim C5 (amended): for a rule file that parses successfully, with N
content lines under [contains], M under [exact] of which K normalize to
the wildcard form, and assuming no two lines of the same category
normalize to the same entry, the loaded sets have exactly N, M - K and K
elements. -/
theorem c5_category_counts (lines : List (List Char)) (R : Rules)
    (hload : loadDomains lines = .ok R)
    (hc : (containsEntries lines).Nodup)
    (hx : (exactEntries lines).Nodup)
    (hw : (wildcardEntries lines).Nodup) :
    R.contains.length = (containsEntries lines).length ∧
      R.exact.length =
        ((exactEntries lines).length + (wildcardEntries lines).length) -
          (wildcardEntries lines).length ∧
      R.wildcards.length = (wildcardEntries lines).length := by
  obtain ⟨h1, h2, h3⟩ := loadAux_ok_entries lines none emptyRules R hload
  have l1 := insertAll_length_nodup (containsEntries lines) [] (by simp) hc
  have l2 := insertAll_length_nodup (exactEntries lines) [] (by simp) hx
  have l3 := insertAll_length_nodup (wildcardEntries lines) [] (by simp) hw
  have g1 : R.contains.length = (containsEntries lines).length := by
    rw [h1]
    simpa [containsEntries] using l1
  have g2 : R.exact.length = (exactEntries lines).length := by
    rw [h2]
    simpa [exactEntries] using l2
  have g3 : R.wildcards.length = (wildcardEntries lines).length := by
    rw [h3]
    simpa [wildcardEntries] using l3
  exact ⟨g1, by omega, g3⟩

/-- Witness for C5: a well-formed file with one contains token, one plain
exact entry and one wildcard entry loads to sets of sizes 1, 1, 1. -/
theorem c5_witness :
    loadDomains ["[contains]".toList, "tok".toList, "[exact]".toList,
        "a.b".toList, "*.c.d".toList] =
      .ok ⟨["tok".toList], ["a.b".toList], ["c.d".toList]⟩ ∧
    (⟨["tok".toList], ["a.b".toList], ["c.d".toList]⟩ : Rules).contains.length =
        (containsEntries ["[contains]".toList, "tok".toList, "[exact]".toList,
          "a.b".toList, "*.c.d".toList]).length ∧
      (⟨["tok".toList], ["a.b".toList], ["c.d".toList]⟩ : Rules).exact.length =
        ((exactEntries ["[contains]".toList, "tok".toList, "[exact]".toList,
            "a.b".toList, "*.c.d".toList]).length +
          (wildcardEntries ["[contains]".toList, "tok".toList, "[exact]".toList,
            "a.b".toList, "*.c.d".toList]).length) -
          (wildcardEntries ["[contains]".toList, "tok".toList, "[exact]".toList,
            "a.b".toList, "*.c.d".toList]).length ∧
      (⟨["tok".toList], ["a.b".toList], ["c.d".toList]⟩ : Rules).wildcards.length =
        (wildcardEntries ["[contains]".toList, "tok".toList, "[exact]".toList,
          "a.b".toList, "*.c.d".toList]).length :=
  ⟨by decide,
   c5_category_counts
     ["[contains]".toList, "tok".toList, "[exact]".toList,
       "a.b".toList, "*.c.d".toList]
     ⟨["tok".toList], ["a.b".toList], ["c.d".toList]⟩
     (by decide) (by decide) (by decide) (by decide)⟩

/-- Claim C6 counterexample: a file consisting solely of the unrecognized
section header [bogus] parses successfully to the empty rule set, so an
unrecognized header alone is NOT a fatal parse error. -/
theorem c6_counterexample :
    pyLowerStr (pyStrip ((pyStrip "[bogus]".toList).drop 1).dropLast) =
        "bogus".toList ∧
      "bogus".toList ≠ "contains".toList ∧
      "bogus".toList ≠ "exact".toList ∧
      loadDomains ["[bogus]".toList] = .ok emptyRules := by
  decide

/-- Claim C6 (amended): any non-blank, non-comment, non-header content
line appearing before the first section header or under an unrecognized
header makes parsing fail with an error; an unrecognized header by itself
is only fatal once a content line appears under it. -/
theorem c6_orphan_content_fatal (lines : List (List Char))
    (h : hasOrphan none lines = true) :
    ∃ e, loadDomains lines = .error e :=
  hasOrphan_error lines none emptyRules h

/-- Witness for C6: a file whose single line is content before any header
fails to parse. -/
theorem c6_witness :
    hasOrphan none ["orphan".toList] = true ∧
      ∃ e, loadDomains ["orphan".toList] = .error e :=
  ⟨by decide, c6_orphan_content_fatal ["orphan".toList] (by decide)⟩

/-- Claim C8 counterexample: the rule file [exact] / BAD fails validation
with the message invalid fqdn: bad, which does not contain the offending
line BAD verbatim (the message holds its lowercased form instead). -/
theorem c8_counterexample :
    loadDomains ["[exact]".toList, "BAD".toList] =
        .error ("invalid fqdn: bad".toList) ∧
      ¬ ("BAD".toList <:+: "invalid fqdn: bad".toList) := by
  decide

/-- Claim C8 (amended): when parsing fails on a validation error (a
message for an invalid FQDN or an invalid wildcard base), the error
message contains the normalized form (lowercased, whitespace- and
dot-stripped) of some input line, not necessarily the verbatim line. -/
theorem c8_validation_error_mentions (lines : List (List Char)) (e : List Char)
    (h : loadDomains lines = .error e)
    (hk : "invalid fqdn: ".toList <+: e ∨ "invalid wildcard base: ".toList <+: e) :
    ∃ raw ∈ lines, entryOf (pyStrip raw) <:+: e :=
  loadAux_validation_error lines none emptyRules e h hk

/-- Witness for C8: for the file [exact] / BAD the validation message
contains the normalized entry of the offending line. -/
theorem c8_witness :
    loadDomains ["[exact]".toList, "BAD".toList] =
        .error ("invalid fqdn: bad".toList) ∧
      ("invalid fqdn: ".toList <+: "invalid fqdn: bad".toList) ∧
      ∃ raw ∈ ["[exact]".toList, "BAD".toList],
        entryOf (pyStrip raw) <:+: "invalid fqdn: bad".toList :=
  ⟨by decide, by decide,
   c8_validation_error_mentions ["[exact]".toList, "BAD".toList]
     ("invalid fqdn: bad".toList) (by decide) (Or.inl (by decide))⟩

/-- Claim C7 counterexample: on the line a.b.c the extractor returns only
a.b.c, although a.b is also a substring matching the domain-shaped
pattern; the scan yields non-overlapping greedy matches, not every
pattern-matching substring. -/
theorem c7_counterexample :
    ("a.b".toList <:+: "a.b.c".toList) ∧
      isDomainShaped "a.b".toList = true ∧
      stripDots (pyLowerStr "a.b".toList) = "a.b".toList ∧
      extractFqdns "a.b.c".toList = ["a.b.c".toList] ∧
      "a.b".toList ∉ extractFqdns "a.b.c".toList := by
  decide

/-- Claim C7 (amended): every element returned by the domain extractor is
the lowercased, dot-stripped form of some domain-shaped substring of the
line (the scan returns the non-overlapping left-to-right greedy matches,
not all matching substrings); an empty line, or a line with no
domain-shaped substring at all, yields the empty set. -/
theorem c7_extract_sound (line : List Char) :
    (∀ x ∈ extractFqdns line,
        ∃ s, s <:+: line ∧ isDomainShaped s = true ∧
          x = stripDots (pyLowerStr s)) ∧
      (line = [] → extractFqdns line = []) ∧
      ((∀ s, s <:+: line → isDomainShaped s = false) →
        extractFqdns line = []) := by
  have hsound : ∀ x ∈ extractFqdns line,
      ∃ s, s <:+: line ∧ isDomainShaped s = true ∧
        x = stripDots (pyLowerStr s) := by
    intro x hx
    simp only [extractFqdns] at hx
    by_cases hl : line = []
    · rw [if_pos hl] at hx
      simp at hx
    · rw [if_neg hl] at hx
      rw [List.mem_dedup] at hx
      obtain ⟨s, hs, hxs⟩ := List.mem_map.mp hx
      obtain ⟨hinf, hshape⟩ := scanAux_sound _ _ _ _ hs
      exact ⟨s, hinf, hshape, hxs.symm⟩
  refine ⟨hsound, ?_, ?_⟩
  · intro hl
    simp [extractFqdns, hl]
  · intro hnone
    rcases hE : extractFqdns line with _ | ⟨x, xs⟩
    · rfl
    · obtain ⟨s, hinf, hshape, _⟩ := hsound x (by rw [hE]; simp)
      rw [hnone s hinf] at hshape
      cases hshape

/-- Witness for C7: on the line a.b the extractor's output element a.b is
the normalized form of a domain-shaped substring of the line. -/
theorem c7_witness :
    "a.b".toList ∈ extractFqdns "a.b".toList ∧
      ∃ s, s <:+: "a.b".toList ∧ isDomainShaped s = true ∧
        "a.b".toList = stripDots (pyLowerStr s) :=
  ⟨by decide, (c7_extract_sound "a.b".toList).1 "a.b".toList (by decide)⟩

/-- Witness for C10: normalization is idempotent on the candidate
" X.Y. " and classification of it and of its normalized form coincide. -/
theorem c10_witness :
    normName (normName " X.Y. ".toList) = normName " X.Y. ".toList ∧
      classifyFqdn (normName " X.Y. ".toList) (⟨[], ["x.y".toList], []⟩ : Rules) =
        classifyFqdn " X.Y. ".toList (⟨[], ["x.y".toList], []⟩ : Rules) :=
  ⟨by decide,
   c10_classify_norm_invariant " X.Y. ".toList
     (⟨[], ["x.y".toList], []⟩ : Rules) (by decide)⟩

end DigBuster
